import Mathlib

/-!
Shallow embedding of the clustering/merging core of `Clustering.py`
(knowledge-graph entity clustering and relation merging), together with
proofs of the specified properties.

Strings are modelled as Lean `String`s (lists of characters); Python float
arithmetic in the similarity ratio is modelled over `ℚ`.  Python's character
classes `\s` and `\w` are modelled for the ASCII range the data uses.
Python code that can raise (`"".split()[0]`) is modelled in `Except`.
-/

namespace SemanticsKG

/-! ## Definitions -/

/-- Python `\s` whitespace characters (ASCII range): the class used by
`re` and by `str.split()` / `str.strip()`. -/
def isSpaceChar (c : Char) : Bool :=
  c == ' ' || c == '\t' || c == '\n' || c == '\r' || c == '\x0b' || c == '\x0c'

/-- Python `\w` word characters (letters, digits, underscore; ASCII range). -/
def isWordChar (c : Char) : Bool :=
  c.isAlphanum || c == '_'

/-- The article alternatives of the regex
`^\s*(il|la|lo|i|gli|le|un|uno|una)\s+` in `normalize_entity`, in the
order the regex alternation tries them. -/
def articles : List (List Char) :=
  [['i', 'l'], ['l', 'a'], ['l', 'o'], ['i'], ['g', 'l', 'i'],
   ['l', 'e'], ['u', 'n'], ['u', 'n', 'o'], ['u', 'n', 'a']]

/-- Try to match one article alternative at the front of `s` followed by
`\s+` (at least one whitespace character, consumed greedily); on success
return the remainder of the string after the match. -/
def tryArticle (a : List Char) (s : List Char) : Option (List Char) :=
  if a.isPrefixOf s then
    match s.drop a.length with
    | [] => none
    | c :: rest => if isSpaceChar c then some (rest.dropWhile isSpaceChar) else none
  else none

/-- `re.sub(r'^\s*(il|la|lo|i|gli|le|un|uno|una)\s+', '', s)`: drop the
leading whitespace, try the article alternatives in order (regex
alternation with backtracking), and if one matches followed by `\s+`
remove the whole match; otherwise the string is unchanged. -/
def stripArticle (s : List Char) : List Char :=
  match articles.findSome? (fun a => tryArticle a (s.dropWhile isSpaceChar)) with
  | some rest => rest
  | none => s

/-- `re.sub(r'[^\w\s]', '', s)`: keep only word and whitespace characters. -/
def keepWordSpace (s : List Char) : List Char :=
  s.filter (fun c => isWordChar c || isSpaceChar c)

/-- Python `str.strip()`: remove leading and trailing whitespace. -/
def stripEnds (s : List Char) : List Char :=
  ((s.dropWhile isSpaceChar).reverse.dropWhile isSpaceChar).reverse

/-- The character-list core of `normalize_entity`:
lower-case, strip one leading article, drop non-word non-space characters,
strip surrounding whitespace (in the order the Python code applies them). -/
def normalizeE (s : List Char) : List Char :=
  stripEnds (keepWordSpace (stripArticle (s.map Char.toLower)))

/-- `normalize_entity` from `Clustering.py` (lines 26-31). -/
def normalize_entity (e : String) : String :=
  ⟨normalizeE e.data⟩

/-- Length of the longest common prefix of two character lists. -/
def commonPrefixLen : List Char → List Char → Nat
  | a :: as, b :: bs => if a = b then commonPrefixLen as bs + 1 else 0
  | _, _ => 0

/-- `difflib.SequenceMatcher.find_longest_match` without junk (autojunk
only fires on sequences of length ≥ 200, far above this program's
entity-name lengths): the longest matching block `(i, j, k)` with
`a[i:i+k] == b[j:j+k]`, ties broken by smallest `i`, then smallest `j`. -/
def longestMatch (a b : List Char) : Nat × Nat × Nat :=
  (List.range a.length).foldl (fun best i =>
    (List.range b.length).foldl (fun best j =>
      let k := commonPrefixLen (a.drop i) (b.drop j)
      if best.2.2 < k then (i, j, k) else best) best) (0, 0, 0)

/-- Total size of all matching blocks found by `SequenceMatcher`'s
recursive decomposition (`get_matching_blocks`): find the longest match,
then recurse on the parts to its left and to its right.  Structural
recursion on a fuel argument; `matchTotal` supplies enough fuel
(`matchTotal_fuel` below shows any fuel ≥ `a.length` gives the same value). -/
def matchTotalAux : Nat → List Char → List Char → Nat
  | 0, _, _ => 0
  | fuel + 1, a, b =>
    let t := longestMatch a b
    if t.2.2 = 0 then 0
    else
      matchTotalAux fuel (a.take t.1) (b.take t.2.1) + t.2.2 +
        matchTotalAux fuel (a.drop (t.1 + t.2.2)) (b.drop (t.2.1 + t.2.2))

/-- Sum of the sizes of `SequenceMatcher(None, a, b)`'s matching blocks. -/
def matchTotal (a b : List Char) : Nat :=
  matchTotalAux a.length a b

/-- `SequenceMatcher.ratio()`: `2*M/T` where `M` is the total matched
size and `T` the sum of the lengths; `1` when both sequences are empty
(`difflib._calculate_ratio`). -/
def simRatio (a b : List Char) : ℚ :=
  if a.length + b.length = 0 then 1
  else 2 * (matchTotal a b : ℚ) / ((a.length : ℚ) + (b.length : ℚ))

/-- `similar` from `Clustering.py` (lines 33-35):
`SequenceMatcher(None, a, b).ratio() >= threshold`. -/
def similar (a b : List Char) (threshold : ℚ) : Bool :=
  threshold ≤ simRatio a b

instance exceptDecidableEq {ε α : Type} [DecidableEq ε] [DecidableEq α] :
    DecidableEq (Except ε α)
  | .error e, .error e' => decidable_of_iff (e = e') (by simp)
  | .error _, .ok _ => isFalse (by simp)
  | .ok _, .error _ => isFalse (by simp)
  | .ok a, .ok a' => decidable_of_iff (a = a') (by simp)

/-- Python `s.split()[0]`: first whitespace-delimited token of `s`;
`none` models the `IndexError` that `"".split()[0]` raises when `s`
contains no token. -/
def firstTok (s : List Char) : Option (List Char) :=
  match s.dropWhile isSpaceChar with
  | [] => none
  | c :: rest => some ((c :: rest).takeWhile (fun c => !isSpaceChar c))

/-- The join condition of `cluster_entities` (lines 57-59), with Python's
short-circuit evaluation: `similar(norm1, norm2, threshold) or
norm1.split()[0] == norm2.split()[0] or norm1[:5] == norm2[:5]`.
An `IndexError` from `split()[0]` on a token-free normalized form is
modelled as `Except.error`. -/
def joinCond (norm1 norm2 : List Char) (threshold : ℚ) : Except String Bool :=
  if similar norm1 norm2 threshold then .ok true
  else
    match firstTok norm1 with
    | none => .error "IndexError"
    | some t1 =>
      match firstTok norm2 with
      | none => .error "IndexError"
      | some t2 => .ok (decide (t1 = t2 ∨ norm1.take 5 = norm2.take 5))

/-- `defaultdict(list)` append: `clusters[key].append(m)`. -/
def pushMember (cs : List (String × List String)) (key m : String) :
    List (String × List String) :=
  if cs.any (fun p => p.1 == key) then
    cs.map (fun p => if p.1 == key then (p.1, p.2 ++ [m]) else p)
  else cs ++ [(key, [m])]

/-- The inner loop of `cluster_entities` (lines 52-61): scan the entries
after position `i` (each an index with its normalized and original form),
skip consumed indices, and on a match mark the index consumed and collect
the original string into the open cluster. -/
def innerScan (threshold : ℚ) (norm1 : List Char) :
    List (Nat × List Char × String) → Finset ℕ → List String →
      Except String (List String × Finset ℕ)
  | [], used, acc => .ok (acc, used)
  | (j, norm2, orig2) :: rest, used, acc =>
    if j ∈ used then innerScan threshold norm1 rest used acc
    else
      match joinCond norm1 norm2 threshold with
      | .error e => .error e
      | .ok true => innerScan threshold norm1 rest (insert j used) (acc ++ [orig2])
      | .ok false => innerScan threshold norm1 rest used acc

/-- The outer loop of `cluster_entities` (lines 43-61): open a new
cluster for each unconsumed entity, then run the inner scan over the
entities after it. -/
def outerScan (threshold : ℚ) :
    List (Nat × List Char × String) → Finset ℕ → List (String × List String) →
      Except String (List (String × List String))
  | [], _, clusters => .ok clusters
  | (i, norm1, orig1) :: rest, used, clusters =>
    if i ∈ used then outerScan threshold rest used clusters
    else
      match innerScan threshold norm1 rest (insert i used) [orig1] with
      | .error e => .error e
      | .ok (members, used2) =>
        outerScan threshold rest used2
          (members.foldl (fun cs m => pushMember cs orig1 m) clusters)

/-- `cluster_entities` from `Clustering.py` (lines 37-63).  The returned
association list models the Python dict in insertion order (cluster
representative ↦ ordered member list).  A reachable `IndexError`
(`"".split()[0]` on an entity whose normalized form is empty) is modelled
as `Except.error`. -/
def cluster_entities (entities : List String) (similarity_threshold : ℚ) :
    Except String (List (String × List String)) :=
  outerScan similarity_threshold
    ((entities.map (fun e => (normalizeE e.data, e))).enum) ∅ []

/-- Python `str.lower()`. -/
def pyLower (s : String) : String :=
  ⟨s.data.map Char.toLower⟩

/-- Python `str.strip()` on `String`. -/
def pyStrip (s : String) : String :=
  ⟨stripEnds s.data⟩

/-- The stoplist of non-informative predicates in `merge_relations`
(line 84). -/
def stoplist : List String :=
  ["is", "has", "of"]

/-- The member → representative map of `merge_relations` (lines 69-74),
as the ordered list of dict writes; a later write overwrites an earlier
one, which `mapGet` models by taking the last matching entry. -/
def buildEntityToCluster (entity_clusters : List (String × List String)) :
    List (String × String) :=
  entity_clusters.flatMap (fun p => p.2.map (fun member => (member, p.1)))

/-- Python `dict.get(k, k)` over the write list: the last write wins;
a key never written maps to itself. -/
def mapGet (m : List (String × String)) (k : String) : String :=
  match m.reverse.find? (fun p => p.1 == k) with
  | some p => p.2
  | none => k

/-- Lexicographic order on triples of linearly ordered components:
Python tuple comparison. -/
def lex3Le {α β γ : Type} [LinearOrder α] [LinearOrder β] [LinearOrder γ]
    (x y : α × β × γ) : Prop :=
  x.1 < y.1 ∨ (x.1 = y.1 ∧ (x.2.1 < y.2.1 ∨ (x.2.1 = y.2.1 ∧ x.2.2 ≤ y.2.2)))

instance lex3LeDecidable {α β γ : Type} [LinearOrder α] [LinearOrder β] [LinearOrder γ] :
    DecidableRel (lex3Le (α := α) (β := β) (γ := γ)) := by
  intro x y
  unfold lex3Le
  infer_instance

instance lex3LeTotal {α β γ : Type} [LinearOrder α] [LinearOrder β] [LinearOrder γ] :
    IsTotal (α × β × γ) lex3Le := by
  constructor
  intro x y
  unfold lex3Le
  rcases lt_trichotomy x.1 y.1 with h | h | h
  · exact Or.inl (Or.inl h)
  · rcases lt_trichotomy x.2.1 y.2.1 with h2 | h2 | h2
    · exact Or.inl (Or.inr ⟨h, Or.inl h2⟩)
    · rcases le_total x.2.2 y.2.2 with h3 | h3
      · exact Or.inl (Or.inr ⟨h, Or.inr ⟨h2, h3⟩⟩)
      · exact Or.inr (Or.inr ⟨h.symm, Or.inr ⟨h2.symm, h3⟩⟩)
    · exact Or.inr (Or.inr ⟨h.symm, Or.inl h2⟩)
  · exact Or.inr (Or.inl h)

instance lex3LeTrans {α β γ : Type} [LinearOrder α] [LinearOrder β] [LinearOrder γ] :
    IsTrans (α × β × γ) lex3Le := by
  constructor
  intro x y z hxy hyz
  unfold lex3Le at *
  rcases hxy with h1 | ⟨e1, h1⟩
  · rcases hyz with h2 | ⟨e2, _⟩
    · exact Or.inl (h1.trans h2)
    · exact Or.inl (e2 ▸ h1)
  · rcases hyz with h2 | ⟨e2, h2⟩
    · exact Or.inl (e1 ▸ h2)
    · refine Or.inr ⟨e1.trans e2, ?_⟩
      rcases h1 with h1 | ⟨f1, h1⟩
      · rcases h2 with h2 | ⟨f2, _⟩
        · exact Or.inl (h1.trans h2)
        · exact Or.inl (f2 ▸ h1)
      · rcases h2 with h2 | ⟨f2, h2⟩
        · exact Or.inl (f1 ▸ h2)
        · exact Or.inr ⟨f1.trans f2, h1.trans h2⟩

instance lex3LeAntisymm {α β γ : Type} [LinearOrder α] [LinearOrder β] [LinearOrder γ] :
    IsAntisymm (α × β × γ) lex3Le := by
  constructor
  intro x y hxy hyx
  unfold lex3Le at *
  rcases hxy with h1 | ⟨e1, h1⟩ <;> rcases hyx with h2 | ⟨e2, h2⟩
  · exact absurd (h1.trans h2) (lt_irrefl _)
  · exact absurd h1 (e2 ▸ lt_irrefl _)
  · exact absurd h2 (e1 ▸ lt_irrefl _)
  · have exy : x.1 = y.1 := e1
    rcases h1 with h1 | ⟨f1, h1⟩ <;> rcases h2 with h2 | ⟨f2, h2⟩
    · exact absurd (h1.trans h2) (lt_irrefl _)
    · exact absurd h1 (f2 ▸ lt_irrefl _)
    · exact absurd h2 (f1 ▸ lt_irrefl _)
    · have : x.2.2 = y.2.2 := le_antisymm h1 h2
      calc x = (x.1, x.2.1, x.2.2) := rfl
        _ = (y.1, y.2.1, y.2.2) := by rw [exy, f1, this]
        _ = y := rfl

/-- `merge_relations` from `Clustering.py` (lines 65-89): resolve both
endpoints through the member → representative map (absent entities map to
themselves), drop resolved self-relations (case-insensitively), short
predicates (trimmed length < 3) and stoplisted predicates, collect the
survivors into a set, and return them sorted (Python `sorted` over tuples:
lexicographic). -/
def merge_relations (relations : List (String × String × String))
    (entity_clusters : List (String × List String)) :
    List (String × String × String) :=
  List.insertionSort lex3Le
    ((relations.filterMap (fun r =>
      if pyLower (mapGet (buildEntityToCluster entity_clusters) r.1) =
            pyLower (mapGet (buildEntityToCluster entity_clusters) r.2.2) ∨
          (pyStrip r.2.1).length < 3 ∨ pyLower r.2.1 ∈ stoplist then none
      else some (mapGet (buildEntityToCluster entity_clusters) r.1, r.2.1,
        mapGet (buildEntityToCluster entity_clusters) r.2.2))).dedup)

/-- `defaultdict(int)` increment: `counts[k] += 1`, keeping dict
insertion order. -/
def bump {α : Type} [DecidableEq α] (acc : List (α × Nat)) (k : α) : List (α × Nat) :=
  if acc.any (fun p => decide (p.1 = k)) then
    acc.map (fun p => if p.1 = k then (p.1, p.2 + 1) else p)
  else acc ++ [(k, 1)]

/-- The comparison behind `sorted(..., key=lambda x: -x[1])`: descending
count. -/
def countGe {α : Type} (x y : α × Nat) : Prop :=
  y.2 ≤ x.2

instance countGeDecidable {α : Type} : DecidableRel (countGe (α := α)) := by
  intro x y
  unfold countGe
  infer_instance

instance countGeTotal {α : Type} : IsTotal (α × Nat) countGe :=
  ⟨fun x y => (le_total y.2 x.2).imp id id⟩

instance countGeTrans {α : Type} : IsTrans (α × Nat) countGe :=
  ⟨fun _ _ _ h1 h2 => le_trans h2 h1⟩

/-- `analyze_relations` from `Clustering.py` (lines 91-103): count
predicates (lower-cased) and (source, target) pairs (lower-cased) in
encounter order, sort each table by descending count, and keep the top 10
predicates and top 5 pairs. -/
def analyze_relations (relations : List (String × String × String)) :
    List (String × Nat) × List ((String × String) × Nat) :=
  ((List.insertionSort countGe
      (relations.foldl (fun acc r => bump acc (pyLower r.2.1)) [])).take 10,
   (List.insertionSort countGe
      (relations.foldl (fun acc r => bump acc (pyLower r.1, pyLower r.2.2)) [])).take 5)

/-- One input knowledge-graph fragment: the `entities`, `relations` and
`edges` fields of a loaded JSON object (absent fields default to empty,
as with `graph.get(..., [])`). -/
structure Graph where
  entities : List String
  relations : List (String × String × String)
  edges : List String
deriving DecidableEq

/-- Lines 107-111: `all_entities.update(graph.get('entities', []))` over
the input graphs. -/
def allEntities (graphs : List Graph) : Finset String :=
  graphs.foldl (fun s g => s ∪ g.entities.toFinset) ∅

/-- Lines 108-112: `all_relations.update(tuple(rel) for rel in ...)`. -/
def allRelations (graphs : List Graph) : Finset (String × String × String) :=
  graphs.foldl (fun s g => s ∪ g.relations.toFinset) ∅

/-- The `stats` object assembled in lines 130-136. -/
structure Stats where
  original_entities : Nat
  clustered_entities : Nat
  original_relations : Nat
  merged_relations : Nat
  top_relations : List (String × Nat)
  common_entity_pairs : List ((String × String) × Nat)
deriving DecidableEq

/-- The output dict of `cluster_knowledge_graphs` (lines 125-137). -/
structure ClusteredGraph where
  entities : List String
  relations : List (String × String × String)
  edges : List String
  entity_clusters : List (String × List String)
  stats : Stats
deriving DecidableEq

/-- `cluster_knowledge_graphs` from `Clustering.py` (lines 105-137).
Python iterates `list(all_entities)` and `list(all_relations)` in an
unspecified set order; the model fixes the deterministic sorted order
(the explicit ordering §9 of the design asks for).  A `cluster_entities`
error propagates. -/
def cluster_knowledge_graphs (graphs : List Graph) (similarity_threshold : ℚ) :
    Except String ClusteredGraph :=
  let all_entities := allEntities graphs
  let all_relations := allRelations graphs
  match cluster_entities (all_entities.sort (· ≤ ·)) similarity_threshold with
  | .error e => .error e
  | .ok entity_clusters =>
    let merged := merge_relations (all_relations.sort lex3Le) entity_clusters
    let relation_stats := analyze_relations merged
    .ok
      { entities := List.insertionSort (· ≤ ·) (entity_clusters.map (fun p => p.1))
        relations := merged
        edges := List.insertionSort (· ≤ ·) (merged.map (fun r => r.2.1)).dedup
        entity_clusters := entity_clusters
        stats :=
          { original_entities := all_entities.card
            clustered_entities := entity_clusters.length
            original_relations := all_relations.card
            merged_relations := merged.length
            top_relations := relation_stats.1
            common_entity_pairs := relation_stats.2 } }

/-- `process_directory` from `Clustering.py` (lines 145-205), modelled at
the I/O boundary: the input is the list of graphs
`load_graphs_from_directory` produced, and the result records which
artifacts are written.  `.ok none` is the early-return "No valid
knowledge graphs found!" outcome, writing nothing; `.ok (some (g, d))`
writes `clustered_kg.json` (the clustered graph `g`) and
`clustering_details.json` (its `entity_clusters` and `stats`, `d`). -/
def process_directory (graphs : List Graph) (similarity_threshold : ℚ) :
    Except String (Option (ClusteredGraph × (List (String × List String) × Stats))) :=
  if graphs.isEmpty then .ok none
  else
    match cluster_knowledge_graphs graphs similarity_threshold with
    | .error e => .error e
    | .ok cg => .ok (some (cg, (cg.entity_clusters, cg.stats)))

/-- The original entries of a scan list whose index is not yet consumed. -/
def pendingOrigs (l : List (Nat × List Char × String)) (used : Finset ℕ) : List String :=
  (l.filter (fun e => decide (e.1 ∉ used))).map (fun e => e.2.2)

/-! ## Helper lemmas -/

theorem foldl_pred {α β : Type} {P : α → Prop} {f : α → β → α} :
    ∀ (l : List β) (init : α), P init → (∀ a b, b ∈ l → P a → P (f a b)) →
      P (l.foldl f init) := by
  intro l
  induction l with
  | nil => intro init h _; exact h
  | cons x xs ih =>
    intro init h hstep
    exact ih _ (hstep _ _ (by simp) h) (fun a b hb => hstep a b (by simp [hb]))

theorem commonPrefixLen_le_left : ∀ (a b : List Char), commonPrefixLen a b ≤ a.length := by
  intro a
  induction a with
  | nil => intro b; simp [commonPrefixLen]
  | cons x xs ih =>
    intro b
    cases b with
    | nil => simp [commonPrefixLen]
    | cons y ys =>
      simp only [commonPrefixLen, List.length_cons]
      split
      · exact Nat.succ_le_succ (ih ys)
      · exact Nat.zero_le _

theorem commonPrefixLen_le_right : ∀ (a b : List Char), commonPrefixLen a b ≤ b.length := by
  intro a
  induction a with
  | nil => intro b; simp [commonPrefixLen]
  | cons x xs ih =>
    intro b
    cases b with
    | nil => simp [commonPrefixLen]
    | cons y ys =>
      simp only [commonPrefixLen, List.length_cons]
      split
      · exact Nat.succ_le_succ (ih ys)
      · exact Nat.zero_le _

/-- The block found by `longestMatch` lies inside both sequences. -/
theorem longestMatch_bounds (a b : List Char) :
    (longestMatch a b).2.2 ≤ a.length - (longestMatch a b).1 ∧
      (longestMatch a b).2.2 ≤ b.length - (longestMatch a b).2.1 := by
  unfold longestMatch
  apply foldl_pred (P := fun t : Nat × Nat × Nat =>
    t.2.2 ≤ a.length - t.1 ∧ t.2.2 ≤ b.length - t.2.1)
  · exact ⟨Nat.zero_le _, Nat.zero_le _⟩
  · intro best i _ hbest
    apply foldl_pred (P := fun t : Nat × Nat × Nat =>
      t.2.2 ≤ a.length - t.1 ∧ t.2.2 ≤ b.length - t.2.1)
    · exact hbest
    · intro cur j _ hcur
      dsimp only
      split
      · constructor
        · have := commonPrefixLen_le_left (a.drop i) (b.drop j)
          simpa [List.length_drop] using this
        · have := commonPrefixLen_le_right (a.drop i) (b.drop j)
          simpa [List.length_drop] using this
      · exact hcur

theorem matchTotalAux_nil (n : Nat) (b : List Char) : matchTotalAux n [] b = 0 := by
  cases n with
  | zero => rfl
  | succ n => simp [matchTotalAux, longestMatch]

theorem matchTotalAux_fuel :
    ∀ (n m : Nat) (a b : List Char), a.length ≤ n → a.length ≤ m →
      matchTotalAux n a b = matchTotalAux m a b := by
  intro n
  induction n using Nat.strong_induction_on with
  | _ n ih =>
    intro m a b hn hm
    cases n with
    | zero =>
      have ha : a = [] := List.length_eq_zero.mp (Nat.le_zero.mp hn)
      subst ha
      rw [matchTotalAux_nil, matchTotalAux_nil]
    | succ n =>
    cases m with
    | zero =>
      have ha : a = [] := List.length_eq_zero.mp (Nat.le_zero.mp hm)
      subst ha
      rw [matchTotalAux_nil, matchTotalAux_nil]
    | succ m =>
      simp only [matchTotalAux]
      have hb := longestMatch_bounds a b
      set t := longestMatch a b with ht
      split
      · rfl
      · rename_i hk
        have hk1 : 1 ≤ t.2.2 := Nat.one_le_iff_ne_zero.mpr hk
        have hi : t.1 + t.2.2 ≤ a.length := by omega
        have hlt : (a.take t.1).length ≤ n := by
          simp only [List.length_take]
          omega
        have hlt' : (a.take t.1).length ≤ m := by
          simp only [List.length_take]
          omega
        have hdt : (a.drop (t.1 + t.2.2)).length ≤ n := by
          simp only [List.length_drop]
          omega
        have hdt' : (a.drop (t.1 + t.2.2)).length ≤ m := by
          simp only [List.length_drop]
          omega
        rw [ih n (Nat.lt_succ_self n) _ _ _ hlt hlt',
          ih n (Nat.lt_succ_self n) _ _ _ hdt hdt']

/-- Fuel irrelevance: `matchTotalAux` with any sufficient fuel computes
`matchTotal`. -/
theorem matchTotal_fuel (n : Nat) (a b : List Char) (h : a.length ≤ n) :
    matchTotalAux n a b = matchTotal a b :=
  matchTotalAux_fuel n a.length a b h (Nat.le_refl _)

/-! ### Clustering partition invariant -/

theorem pendingOrigs_nil (used : Finset ℕ) : pendingOrigs [] used = [] := rfl

theorem pendingOrigs_cons_mem {j : ℕ} {n2 : List Char} {o2 : String}
    {rest : List (Nat × List Char × String)} {used : Finset ℕ} (h : j ∈ used) :
    pendingOrigs ((j, n2, o2) :: rest) used = pendingOrigs rest used := by
  simp [pendingOrigs, List.filter_cons, h]

theorem pendingOrigs_cons_not_mem {j : ℕ} {n2 : List Char} {o2 : String}
    {rest : List (Nat × List Char × String)} {used : Finset ℕ} (h : j ∉ used) :
    pendingOrigs ((j, n2, o2) :: rest) used = o2 :: pendingOrigs rest used := by
  simp [pendingOrigs, List.filter_cons, h]

theorem pendingOrigs_insert {j : ℕ} {rest : List (Nat × List Char × String)}
    (h : j ∉ rest.map (fun e => e.1)) (used : Finset ℕ) :
    pendingOrigs rest (insert j used) = pendingOrigs rest used := by
  unfold pendingOrigs
  congr 1
  apply List.filter_congr
  intro e he
  have hne : e.1 ≠ j := by
    intro hej
    exact h (hej ▸ List.mem_map_of_mem (fun e => e.1) he)
  simp [Finset.mem_insert, hne]

theorem innerScan_spec (threshold : ℚ) (norm1 : List Char) :
    ∀ (rest : List (Nat × List Char × String)) (used : Finset ℕ)
      (acc members : List String) (used2 : Finset ℕ),
      (rest.map (fun e => e.1)).Nodup →
      innerScan threshold norm1 rest used acc = .ok (members, used2) →
      ((members : Multiset String) + (pendingOrigs rest used2 : Multiset String) =
        (acc : Multiset String) + (pendingOrigs rest used : Multiset String)) ∧
      used ⊆ used2 ∧ ∀ k ∈ used2, k ∈ used ∨ k ∈ rest.map (fun e => e.1) := by
  intro rest
  induction rest with
  | nil =>
    intro used acc members used2 _ h
    simp only [innerScan, Except.ok.injEq, Prod.mk.injEq] at h
    obtain ⟨h1, h2⟩ := h
    subst h1; subst h2
    exact ⟨rfl, Finset.Subset.refl _, fun k hk => Or.inl hk⟩
  | cons e rest ih =>
    obtain ⟨j, n2, o2⟩ := e
    intro used acc members used2 hnd h
    rw [List.map_cons, List.nodup_cons] at hnd
    simp only [innerScan] at h
    by_cases hj : j ∈ used
    · rw [if_pos hj] at h
      obtain ⟨heq, hsub, hdom⟩ := ih used acc members used2 hnd.2 h
      refine ⟨?_, hsub, ?_⟩
      · rw [pendingOrigs_cons_mem hj, pendingOrigs_cons_mem (hsub hj)]
        exact heq
      · intro k hk
        rcases hdom k hk with hk' | hk'
        · exact Or.inl hk'
        · exact Or.inr (by simp [hk'])
    · rw [if_neg hj] at h
      cases hjc : joinCond norm1 n2 threshold with
      | error e =>
        rw [hjc] at h
        cases h
      | ok b =>
        rw [hjc] at h
        cases b with
        | true =>
          obtain ⟨heq, hsub, hdom⟩ :=
            ih (insert j used) (acc ++ [o2]) members used2 hnd.2 h
          have hj2 : j ∈ used2 := hsub (Finset.mem_insert_self j used)
          refine ⟨?_, (Finset.subset_insert j used).trans hsub, ?_⟩
          · rw [pendingOrigs_cons_mem hj2, pendingOrigs_cons_not_mem hj,
              heq, pendingOrigs_insert hnd.1,
              show (o2 :: pendingOrigs rest used) = [o2] ++ pendingOrigs rest used from rfl,
              ← Multiset.coe_add, ← Multiset.coe_add, add_assoc]
          · intro k hk
            rcases hdom k hk with hk' | hk'
            · rcases Finset.mem_insert.mp hk' with hk'' | hk''
              · exact Or.inr (by simp [hk''])
              · exact Or.inl hk''
            · exact Or.inr (by simp [hk'])
        | false =>
          obtain ⟨heq, hsub, hdom⟩ := ih used acc members used2 hnd.2 h
          have hj2 : j ∉ used2 := by
            intro hk
            rcases hdom j hk with hk' | hk'
            · exact hj hk'
            · exact hnd.1 hk'
          refine ⟨?_, hsub, ?_⟩
          · rw [pendingOrigs_cons_not_mem hj2, pendingOrigs_cons_not_mem hj,
              show (o2 :: pendingOrigs rest used2) = [o2] ++ pendingOrigs rest used2 from rfl,
              show (o2 :: pendingOrigs rest used) = [o2] ++ pendingOrigs rest used from rfl,
              ← Multiset.coe_add, ← Multiset.coe_add, add_left_comm, heq, add_left_comm]
          · intro k hk
            rcases hdom k hk with hk' | hk'
            · exact Or.inl hk'
            · exact Or.inr (by simp [hk'])

theorem pushMember_keys (cs : List (String × List String)) (k v : String) :
    (pushMember cs k v).map (fun p => p.1) = cs.map (fun p => p.1) ∨
      ((pushMember cs k v).map (fun p => p.1) = cs.map (fun p => p.1) ++ [k] ∧
        k ∉ cs.map (fun p => p.1)) := by
  unfold pushMember
  split
  · left
    rw [List.map_map]
    apply List.map_congr_left
    intro p _
    simp only [Function.comp]
    split <;> rfl
  · right
    rename_i hany
    constructor
    · simp
    · intro hk
      apply hany
      rcases List.mem_map.mp hk with ⟨p, hp, hpk⟩
      exact List.any_eq_true.mpr ⟨p, hp, by simp [hpk]⟩

theorem pushMember_keys_nodup {cs : List (String × List String)} {k v : String}
    (h : (cs.map (fun p => p.1)).Nodup) :
    ((pushMember cs k v).map (fun p => p.1)).Nodup := by
  rcases pushMember_keys cs k v with he | ⟨he, hk⟩
  · rw [he]; exact h
  · rw [he]
    simp [List.nodup_append, h, hk]

theorem update_flatten :
    ∀ (cs : List (String × List String)) (k v : String),
      (cs.map (fun p => p.1)).Nodup → cs.any (fun p => p.1 == k) = true →
      (((cs.map (fun p => if p.1 == k then (p.1, p.2 ++ [v]) else p)).map
          (fun p => p.2)).flatten : Multiset String) =
        ((cs.map (fun p => p.2)).flatten : Multiset String) + {v} := by
  intro cs
  induction cs with
  | nil => intro k v _ hany; simp at hany
  | cons a rest ih =>
    intro k v hnd hany
    rw [List.map_cons, List.nodup_cons] at hnd
    by_cases hk : a.1 = k
    · have hmap : rest.map (fun p => if p.1 == k then (p.1, p.2 ++ [v]) else p) = rest := by
        have hid : ∀ p ∈ rest, (if p.1 == k then (p.1, p.2 ++ [v]) else p) = id p := by
          intro p hp
          have hne : p.1 ≠ k := by
            intro he
            apply hnd.1
            rw [hk, ← he]
            exact List.mem_map_of_mem (fun p => p.1) hp
          simp [hne]
        rw [List.map_congr_left hid, List.map_id]
      have hfa : (if a.1 == k then (a.1, a.2 ++ [v]) else a) = (a.1, a.2 ++ [v]) := by
        simp [hk]
      simp only [List.map_cons, hfa, hmap, List.flatten_cons]
      rw [← Multiset.coe_add, ← Multiset.coe_add, ← Multiset.coe_add, Multiset.coe_singleton,
        add_right_comm]
    · have hfa : (if a.1 == k then (a.1, a.2 ++ [v]) else a) = a := by
        simp [hk]
      have hany' : rest.any (fun p => p.1 == k) = true := by
        rcases List.any_eq_true.mp hany with ⟨p, hp, hpk⟩
        rcases List.mem_cons.mp hp with he | hp'
        · refine absurd ?_ hk
          rw [he] at hpk
          simpa using hpk
        · exact List.any_eq_true.mpr ⟨p, hp', hpk⟩
      simp only [List.map_cons, hfa, List.flatten_cons]
      rw [← Multiset.coe_add, ← Multiset.coe_add, ih k v hnd.2 hany', add_assoc]

theorem pushMember_flatten (cs : List (String × List String)) (k v : String)
    (h : (cs.map (fun p => p.1)).Nodup) :
    (((pushMember cs k v).map (fun p => p.2)).flatten : Multiset String) =
      ((cs.map (fun p => p.2)).flatten : Multiset String) + {v} := by
  unfold pushMember
  split
  · rename_i hany
    exact update_flatten cs k v h hany
  · simp only [List.map_append, List.flatten_append, List.map_cons, List.map_nil,
      List.flatten_cons, List.flatten_nil, List.append_nil]
    rw [← Multiset.coe_add, Multiset.coe_singleton]

theorem foldl_pushMember (k : String) :
    ∀ (members : List String) (cs : List (String × List String)),
      (cs.map (fun p => p.1)).Nodup →
      (((members.foldl (fun cs m => pushMember cs k m) cs).map (fun p => p.1)).Nodup ∧
        (((members.foldl (fun cs m => pushMember cs k m) cs).map (fun p => p.2)).flatten
            : Multiset String) =
          ((cs.map (fun p => p.2)).flatten : Multiset String) + ↑members) := by
  intro members
  induction members with
  | nil => intro cs h; exact ⟨h, by simp⟩
  | cons m ms ih =>
    intro cs hnd
    simp only [List.foldl_cons]
    obtain ⟨h1, h2⟩ := ih (pushMember cs k m) (pushMember_keys_nodup hnd)
    refine ⟨h1, ?_⟩
    rw [h2, pushMember_flatten cs k m hnd,
      show (m :: ms : List String) = [m] ++ ms from rfl, ← Multiset.coe_add,
      Multiset.coe_singleton, ← add_assoc]

theorem outerScan_spec (threshold : ℚ) :
    ∀ (todo : List (Nat × List Char × String)) (used : Finset ℕ)
      (clusters cs : List (String × List String)),
      (todo.map (fun e => e.1)).Nodup →
      (clusters.map (fun p => p.1)).Nodup →
      outerScan threshold todo used clusters = .ok cs →
      ((cs.map (fun p => p.2)).flatten : Multiset String) =
        ((clusters.map (fun p => p.2)).flatten : Multiset String) +
          ↑(pendingOrigs todo used) := by
  intro todo
  induction todo with
  | nil =>
    intro used clusters cs _ _ h
    simp only [outerScan, Except.ok.injEq] at h
    subst h
    simp [pendingOrigs_nil]
  | cons e rest ih =>
    obtain ⟨i, n1, o1⟩ := e
    intro used clusters cs hnd hkeys h
    rw [List.map_cons, List.nodup_cons] at hnd
    simp only [outerScan] at h
    by_cases hi : i ∈ used
    · rw [if_pos hi] at h
      rw [pendingOrigs_cons_mem hi]
      exact ih used clusters cs hnd.2 hkeys h
    · rw [if_neg hi] at h
      cases hin : innerScan threshold n1 rest (insert i used) [o1] with
      | error e =>
        rw [hin] at h
        cases h
      | ok p =>
        obtain ⟨members, used2⟩ := p
        rw [hin] at h
        obtain ⟨heq, _, _⟩ :=
          innerScan_spec threshold n1 rest (insert i used) [o1] members used2 hnd.2 hin
        obtain ⟨hknd, hflat⟩ := foldl_pushMember o1 members clusters hkeys
        have hih := ih used2 _ cs hnd.2 hknd h
        rw [hih, hflat, pendingOrigs_cons_not_mem hi]
        rw [pendingOrigs_insert hnd.1] at heq
        calc ((clusters.map (fun p => p.2)).flatten : Multiset String) + ↑members +
              ↑(pendingOrigs rest used2)
            = ((clusters.map (fun p => p.2)).flatten : Multiset String) +
              (↑members + ↑(pendingOrigs rest used2)) := by rw [add_assoc]
          _ = ((clusters.map (fun p => p.2)).flatten : Multiset String) +
              (↑[o1] + ↑(pendingOrigs rest used)) := by rw [heq]
          _ = ((clusters.map (fun p => p.2)).flatten : Multiset String) +
              ↑(o1 :: pendingOrigs rest used) := by
                rw [show (o1 :: pendingOrigs rest used) = [o1] ++ pendingOrigs rest used
                  from rfl, ← Multiset.coe_add]

theorem cluster_entities_ok_perm {entities : List String} {threshold : ℚ}
    {cs : List (String × List String)}
    (h : cluster_entities entities threshold = .ok cs) :
    ((cs.map (fun p => p.2)).flatten).Perm entities := by
  unfold cluster_entities at h
  have hnd : (((entities.map (fun e => (normalizeE e.data, e))).enum.map
      (fun e => e.1)).Nodup) := by
    have := List.enum_map_fst (entities.map (fun e => (normalizeE e.data, e)))
    simp only [show (fun e : Nat × List Char × String => e.1) = Prod.fst from rfl, this]
    exact List.nodup_range _
  have hspec := outerScan_spec threshold _ ∅ [] cs hnd (by simp) h
  rw [← Multiset.coe_eq_coe]
  rw [hspec]
  have hpend : pendingOrigs ((entities.map (fun e => (normalizeE e.data, e))).enum) ∅ =
      entities := by
    unfold pendingOrigs
    rw [List.filter_eq_self.mpr (by intro e _; simp)]
    rw [show (fun e : Nat × List Char × String => e.2.2) =
      (fun x : List Char × String => x.2) ∘ Prod.snd from rfl]
    rw [← List.map_map, List.enum_map_snd, List.map_map,
      show ((fun x : List Char × String => x.2) ∘ fun e : String => (normalizeE e.data, e))
        = id from rfl, List.map_id]
  rw [hpend]
  simp

theorem allEntities_eq :
    ∀ (gs : List Graph) (s : Finset String),
      gs.foldl (fun s g => s ∪ g.entities.toFinset) s =
        s ∪ (gs.flatMap (fun g => g.entities)).toFinset := by
  intro gs
  induction gs with
  | nil => intro s; simp
  | cons g gs ih =>
    intro s
    simp only [List.foldl_cons, List.flatMap_cons, List.toFinset_append, ih,
      Finset.union_assoc]

theorem allRelations_eq :
    ∀ (gs : List Graph) (s : Finset (String × String × String)),
      gs.foldl (fun s g => s ∪ g.relations.toFinset) s =
        s ∪ (gs.flatMap (fun g => g.relations)).toFinset := by
  intro gs
  induction gs with
  | nil => intro s; simp
  | cons g gs ih =>
    intro s
    simp only [List.foldl_cons, List.flatMap_cons, List.toFinset_append, ih,
      Finset.union_assoc]

theorem allEntities_congr {gs gs' : List Graph}
    (h : List.Forall₂ (fun g g' : Graph => g.entities = g'.entities) gs gs') :
    ∀ s : Finset String,
      gs.foldl (fun s g => s ∪ g.entities.toFinset) s =
        gs'.foldl (fun s g => s ∪ g.entities.toFinset) s := by
  induction h with
  | nil => intro s; rfl
  | cons hg _ ih =>
    intro s
    simp only [List.foldl_cons]
    rw [hg]
    exact ih _

theorem allRelations_congr {gs gs' : List Graph}
    (h : List.Forall₂ (fun g g' : Graph => g.relations = g'.relations) gs gs') :
    ∀ s : Finset (String × String × String),
      gs.foldl (fun s g => s ∪ g.relations.toFinset) s =
        gs'.foldl (fun s g => s ∪ g.relations.toFinset) s := by
  induction h with
  | nil => intro s; rfl
  | cons hg _ ih =>
    intro s
    simp only [List.foldl_cons]
    rw [hg]
    exact ih _

/-! ### Normalization lemmas -/

theorem char_toNat_ofNat {n : Nat} (h : n.isValidChar) : (Char.ofNat n).toNat = n := by
  unfold Char.ofNat
  rw [dif_pos h]
  unfold Char.ofNatAux Char.toNat UInt32.toNat
  simp [BitVec.toNat_ofNatLt]

/-- `Char.toLower` is idempotent: lowering maps uppercase ASCII out of the
uppercase range and fixes everything else. -/
theorem toLower_idem (c : Char) : c.toLower.toLower = c.toLower := by
  simp only [Char.toLower]
  by_cases h : c.toNat ≥ 65 ∧ c.toNat ≤ 90
  · rw [if_pos h]
    have hv : (c.toNat + 32).isValidChar := Or.inl (by omega)
    rw [char_toNat_ofNat hv, if_neg (by omega)]
  · rw [if_neg h, if_neg h]

theorem dropWhile_self (p : Char → Bool) :
    ∀ l : List Char, (l.dropWhile p).dropWhile p = l.dropWhile p := by
  intro l
  induction l with
  | nil => rfl
  | cons a l ih =>
    by_cases h : p a = true
    · simp [List.dropWhile_cons, h, ih]
    · simp [List.dropWhile_cons, h]

theorem dropWhile_head_false (p : Char → Bool) :
    ∀ (l t : List Char) (a : Char), l.dropWhile p = a :: t → p a = false := by
  intro l
  induction l with
  | nil => intro t a h; cases h
  | cons b l ih =>
    intro t a h
    by_cases hb : p b = true
    · rw [List.dropWhile_cons, if_pos hb] at h
      exact ih t a h
    · rw [List.dropWhile_cons, if_neg hb] at h
      cases h
      exact Bool.not_eq_true _ |>.mp hb

theorem tryArticle_subset {a t r : List Char} (h : tryArticle a t = some r) :
    ∀ {c : Char}, c ∈ r → c ∈ t := by
  intro c hc
  unfold tryArticle at h
  split at h
  · cases hd : t.drop a.length with
    | nil => rw [hd] at h; cases h
    | cons c0 rest0 =>
      rw [hd] at h
      have h2 : (if isSpaceChar c0 = true then some (rest0.dropWhile isSpaceChar)
          else none) = some r := h
      by_cases hsp : isSpaceChar c0 = true
      · rw [if_pos hsp] at h2
        injection h2 with h'
        subst h'
        have h1 : c ∈ rest0 := (List.dropWhile_sublist _).subset hc
        have h2 : c ∈ t.drop a.length := by
          rw [hd]; exact List.mem_cons_of_mem _ h1
        exact List.drop_subset _ _ h2
      · rw [if_neg hsp] at h2; cases h2
  · cases h

theorem mem_stripArticle {c : Char} {s : List Char} (h : c ∈ stripArticle s) : c ∈ s := by
  unfold stripArticle at h
  cases hf : articles.findSome? (fun a => tryArticle a (s.dropWhile isSpaceChar)) with
  | none => rw [hf] at h; exact h
  | some rest =>
    rw [hf] at h
    obtain ⟨a, _, ha⟩ := List.exists_of_findSome?_eq_some hf
    exact (List.dropWhile_sublist _).subset (tryArticle_subset ha h)

theorem mem_stripEnds {c : Char} {s : List Char} (h : c ∈ stripEnds s) : c ∈ s := by
  unfold stripEnds at h
  rw [List.mem_reverse] at h
  have h1 := (List.dropWhile_sublist isSpaceChar).subset h
  rw [List.mem_reverse] at h1
  exact (List.dropWhile_sublist isSpaceChar).subset h1

/-- Every character of a normalized form is fixed by `Char.toLower`. -/
theorem mem_normalizeE_lower {c : Char} {l : List Char} (h : c ∈ normalizeE l) :
    c.toLower = c := by
  unfold normalizeE keepWordSpace at h
  have h1 := mem_stripArticle ((List.filter_sublist _).subset (mem_stripEnds h))
  obtain ⟨c', _, hc'⟩ := List.mem_map.mp h1
  rw [← hc']
  exact toLower_idem c'

/-- Every character of a normalized form is a word or whitespace character. -/
theorem mem_normalizeE_wordspace {c : Char} {l : List Char} (h : c ∈ normalizeE l) :
    (isWordChar c || isSpaceChar c) = true := by
  unfold normalizeE keepWordSpace at h
  have h' := mem_stripEnds h
  simpa using List.of_mem_filter h'

/-- The surviving core of `stripEnds s` is a prefix of `s.dropWhile isSpaceChar`. -/
theorem stripEnds_prefix (s : List Char) :
    stripEnds s <+: s.dropWhile isSpaceChar := by
  unfold stripEnds
  have h := List.dropWhile_suffix (l := (s.dropWhile isSpaceChar).reverse) isSpaceChar
  have h2 := List.reverse_prefix.mpr h
  rwa [List.reverse_reverse] at h2

/-- A nonempty `stripEnds` result starts with a non-whitespace character. -/
theorem stripEnds_head_not_space {s : List Char} {a : Char} {t : List Char}
    (h : stripEnds s = a :: t) : isSpaceChar a = false := by
  obtain ⟨rest, hrest⟩ := stripEnds_prefix s
  rw [h] at hrest
  exact dropWhile_head_false isSpaceChar s (t ++ rest) a hrest.symm

theorem stripEnds_idem (s : List Char) : stripEnds (stripEnds s) = stripEnds s := by
  have hA : (stripEnds s).dropWhile isSpaceChar = stripEnds s := by
    cases hu : stripEnds s with
    | nil => rfl
    | cons a u' =>
      rw [List.dropWhile_cons, if_neg (by rw [stripEnds_head_not_space hu]; simp)]
  show ((((stripEnds s).dropWhile isSpaceChar).reverse.dropWhile isSpaceChar).reverse)
      = stripEnds s
  rw [hA]
  unfold stripEnds
  rw [List.reverse_reverse, dropWhile_self]

/-- A nonempty normalized form has a first token (`split()[0]` succeeds). -/
theorem firstTok_normalizeE {l : List Char} (h : normalizeE l ≠ []) :
    ∃ tk, firstTok (normalizeE l) = some tk := by
  cases hn : normalizeE l with
  | nil => exact absurd hn h
  | cons a t =>
    have ha : isSpaceChar a = false := by
      unfold normalizeE at hn
      exact stripEnds_head_not_space hn
    refine ⟨(a :: t).takeWhile (fun c => !isSpaceChar c), ?_⟩
    unfold firstTok
    rw [List.dropWhile_cons, if_neg (by rw [ha]; simp)]

/-- Applying the normalization pipeline to an already-normalized form only
re-runs the article-stripping step: the lower-casing, punctuation-removal
and whitespace-trimming steps are the identity there. -/
theorem normalizeE_idem_of_stripArticle {l : List Char}
    (h : stripArticle (normalizeE l) = normalizeE l) :
    normalizeE (normalizeE l) = normalizeE l := by
  have h0 : ∀ c ∈ normalizeE l, Char.toLower c = id c :=
    fun c hc => mem_normalizeE_lower hc
  have h1 : (normalizeE l).map Char.toLower = normalizeE l := by
    rw [List.map_congr_left h0, List.map_id]
  have h3 : keepWordSpace (normalizeE l) = normalizeE l :=
    List.filter_eq_self.mpr (fun c hc => mem_normalizeE_wordspace hc)
  have h4 : stripEnds (normalizeE l) = normalizeE l :=
    stripEnds_idem (keepWordSpace (stripArticle (l.map Char.toLower)))
  show stripEnds (keepWordSpace (stripArticle ((normalizeE l).map Char.toLower)))
      = normalizeE l
  rw [h1, h, h3, h4]

/-! ### Totality of clustering under nonempty normalized forms -/

theorem joinCond_ok {n1 n2 : List Char} (threshold : ℚ)
    (h1 : ∃ tk, firstTok n1 = some tk) (h2 : ∃ tk, firstTok n2 = some tk) :
    ∃ b, joinCond n1 n2 threshold = .ok b := by
  unfold joinCond
  split
  · exact ⟨true, rfl⟩
  · obtain ⟨tk1, e1⟩ := h1
    obtain ⟨tk2, e2⟩ := h2
    rw [e1, e2]
    exact ⟨_, rfl⟩

theorem innerScan_total (threshold : ℚ) (norm1 : List Char)
    (h1 : ∃ tk, firstTok norm1 = some tk) :
    ∀ (rest : List (Nat × List Char × String)) (used : Finset ℕ) (acc : List String),
      (∀ e ∈ rest, ∃ tk, firstTok e.2.1 = some tk) →
      ∃ out, innerScan threshold norm1 rest used acc = .ok out := by
  intro rest
  induction rest with
  | nil => intro used acc _; exact ⟨(acc, used), rfl⟩
  | cons e rest ih =>
    obtain ⟨j, n2, o2⟩ := e
    intro used acc hall
    simp only [innerScan]
    by_cases hj : j ∈ used
    · rw [if_pos hj]
      exact ih used acc (fun e he => hall e (List.mem_cons_of_mem _ he))
    · rw [if_neg hj]
      obtain ⟨b, hb⟩ := joinCond_ok threshold h1 (hall (j, n2, o2) (List.mem_cons_self _ _))
      rw [hb]
      cases b with
      | true =>
        refine ih (insert j used) (acc ++ [o2]) ?_
        intro e he
        exact hall e (List.mem_cons_of_mem _ he)
      | false =>
        refine ih used acc ?_
        intro e he
        exact hall e (List.mem_cons_of_mem _ he)

theorem outerScan_total (threshold : ℚ) :
    ∀ (todo : List (Nat × List Char × String)) (used : Finset ℕ)
      (clusters : List (String × List String)),
      (∀ e ∈ todo, ∃ tk, firstTok e.2.1 = some tk) →
      ∃ cs, outerScan threshold todo used clusters = .ok cs := by
  intro todo
  induction todo with
  | nil => intro used clusters _; exact ⟨clusters, rfl⟩
  | cons e rest ih =>
    obtain ⟨i, n1, o1⟩ := e
    intro used clusters hall
    simp only [outerScan]
    by_cases hi : i ∈ used
    · rw [if_pos hi]
      exact ih used clusters (fun e he => hall e (List.mem_cons_of_mem _ he))
    · rw [if_neg hi]
      obtain ⟨out, hout⟩ :=
        innerScan_total threshold n1 (hall (i, n1, o1) (List.mem_cons_self _ _))
          rest (insert i used) [o1] (fun e he => hall e (List.mem_cons_of_mem _ he))
      rw [hout]
      obtain ⟨members, used2⟩ := out
      refine ih used2 _ ?_
      intro e he
      exact hall e (List.mem_cons_of_mem _ he)

/-! ### Analyzer counting lemmas -/

/-- Each entry of the counting fold carries the exact count of its key in
the processed list (plus whatever the seed predicted). -/
theorem foldl_bump_spec {α : Type} [DecidableEq α] :
    ∀ (l : List α) (acc : List (α × Nat)) (f : α → Nat),
      (∀ p ∈ acc, p.2 = f p.1) →
      (∀ k, k ∉ acc.map (fun p => p.1) → f k = 0) →
      ∀ p ∈ l.foldl bump acc,
        p.2 = f p.1 + l.countP (fun x => decide (x = p.1)) := by
  intro l
  induction l with
  | nil =>
    intro acc f hval _ p hp
    simpa using hval p hp
  | cons x xs ih =>
    intro acc f hval habs p hp
    rw [List.foldl_cons] at hp
    have hval' : ∀ p ∈ bump acc x, p.2 = f p.1 + (if p.1 = x then 1 else 0) := by
      intro p hp
      unfold bump at hp
      split at hp
      · obtain ⟨q, hq, hqe⟩ := List.mem_map.mp hp
        by_cases hqx : q.1 = x
        · rw [if_pos hqx] at hqe
          rw [← hqe]
          show q.2 + 1 = f q.1 + if q.1 = x then 1 else 0
          rw [if_pos hqx, hval q hq]
        · rw [if_neg hqx] at hqe
          rw [← hqe]
          rw [if_neg hqx, hval q hq]
          omega
      · rcases List.mem_append.mp hp with hq | hq
        · have hnx : p.1 ≠ x := by
            intro he
            rename_i hany
            apply hany
            apply List.any_eq_true.mpr
            exact ⟨p, hq, by simp [he]⟩
          rw [if_neg hnx, hval p hq]
          omega
        · have he : p = (x, 1) := by simpa using hq
          subst he
          show 1 = f x + if x = x then 1 else 0
          have hfx : f x = 0 := by
            apply habs
            intro hk
            rename_i hany
            apply hany
            obtain ⟨q, hq, hqe⟩ := List.mem_map.mp hk
            exact List.any_eq_true.mpr ⟨q, hq, by simp [hqe]⟩
          rw [if_pos rfl, hfx]
    have habs' : ∀ k, k ∉ (bump acc x).map (fun p => p.1) →
        f k + (if k = x then 1 else 0) = 0 := by
      intro k hk
      have hkx : k ≠ x := by
        intro he
        subst he
        apply hk
        unfold bump
        split
        · rename_i hany
          obtain ⟨q, hq, hqe⟩ := List.any_eq_true.mp hany
          have : q.1 = k := of_decide_eq_true hqe
          refine List.mem_map.mpr ⟨if q.1 = k then (q.1, q.2 + 1) else q, ?_, ?_⟩
          · exact List.mem_map.mpr ⟨q, hq, rfl⟩
          · rw [if_pos this]
            exact this
        · refine List.mem_map.mpr ⟨(k, 1), ?_, rfl⟩
          exact List.mem_append.mpr (Or.inr (by simp))
      have hk0 : k ∉ acc.map (fun p => p.1) := by
        intro hmem
        apply hk
        unfold bump
        split
        · obtain ⟨q, hq, hqe⟩ := List.mem_map.mp hmem
          refine List.mem_map.mpr ⟨if q.1 = x then (q.1, q.2 + 1) else q, ?_, ?_⟩
          · exact List.mem_map.mpr ⟨q, hq, rfl⟩
          · by_cases hqx : q.1 = x
            · rw [if_pos hqx]
              exact hqe
            · rw [if_neg hqx]
              exact hqe
        · rw [List.map_append]
          exact List.mem_append.mpr (Or.inl hmem)
      rw [if_neg hkx, habs k hk0]
    have hmain := ih (bump acc x) (fun y => f y + (if y = x then 1 else 0))
      hval' habs' p hp
    rw [List.countP_cons, hmain]
    dsimp only
    by_cases hpx : p.1 = x
    · subst hpx
      rw [if_pos rfl]
      have hdec : (decide (p.1 = p.1)) = true := by simp
      rw [hdec, if_pos rfl]
      omega
    · rw [if_neg hpx]
      have hdec : (decide (x = p.1)) = false := by
        simp only [decide_eq_false_iff_not]
        intro he
        exact hpx he.symm
      rw [hdec]
      simp

/-- Length, sortedness and count correctness of a truncated, descending
count table (shared shape of both analyzer outputs). -/
theorem topTable_spec {α : Type} [DecidableEq α]
    (key : (String × String × String) → α)
    (relations : List (String × String × String)) (n : Nat) :
    ((List.insertionSort countGe
        (relations.foldl (fun acc r => bump acc (key r)) [])).take n).length ≤ n ∧
    ((List.insertionSort countGe
        (relations.foldl (fun acc r => bump acc (key r)) [])).take n).Sorted countGe ∧
    ∀ p ∈ (List.insertionSort countGe
        (relations.foldl (fun acc r => bump acc (key r)) [])).take n,
      p.2 = relations.countP (fun r => decide (key r = p.1)) := by
  refine ⟨List.length_take_le _ _, ?_, ?_⟩
  · exact List.Pairwise.sublist (List.take_sublist _ _)
      (List.sorted_insertionSort countGe _)
  · intro p hp
    have hp1 := List.mem_of_mem_take hp
    have hp2 := (List.perm_insertionSort countGe _).mem_iff.mp hp1
    have htab : relations.foldl (fun acc r => bump acc (key r)) [] =
        (relations.map key).foldl bump [] := by
      rw [List.foldl_map]
    rw [htab] at hp2
    have hcount := foldl_bump_spec (relations.map key) [] (fun _ => 0)
      (by simp) (by simp) p hp2
    rw [List.countP_map] at hcount
    simpa using hcount

/-! ## Claim theorems -/

/-- C1: Partition invariant of clustering: for every list of pairwise-distinct
entity strings, a successful `cluster_entities` run returns clusters whose
member lists, concatenated, are a permutation of the input entity list (so
their union is exactly the input entity set) and contain no duplicate entity
(so every input entity appears in exactly one cluster's member list — a
partition, nothing shared, nothing left out). -/
theorem cluster_entities_partition (entities : List String) (threshold : ℚ)
    (cs : List (String × List String)) (hnd : entities.Nodup)
    (h : cluster_entities entities threshold = .ok cs) :
    ((cs.map (fun p => p.2)).flatten).Perm entities ∧
      ((cs.map (fun p => p.2)).flatten).Nodup := by
  have hp := cluster_entities_ok_perm h
  exact ⟨hp, hp.nodup_iff.mpr hnd⟩

set_option maxRecDepth 8000 in
unseal Rat.mul Rat.inv Rat.add Rat.sub in
/-- Witness for C1: the partition property evaluated on Scenario A's input. -/
theorem cluster_entities_partition_witness :
    ((([("Il Cane", ["Il Cane", "cane"]), ("Gatto", ["Gatto"])].map
        (fun p : String × List String => p.2)).flatten).Perm
      ["Il Cane", "cane", "Gatto"] ∧
    (([("Il Cane", ["Il Cane", "cane"]), ("Gatto", ["Gatto"])].map
        (fun p : String × List String => p.2)).flatten).Nodup) :=
  cluster_entities_partition ["Il Cane", "cane", "Gatto"] (85/100)
    [("Il Cane", ["Il Cane", "cane"]), ("Gatto", ["Gatto"])] (by decide) (by decide)

set_option maxRecDepth 8000 in
unseal Rat.mul Rat.inv Rat.add Rat.sub in
/-- C3 counterexample: normalization is not idempotent.  Normalizing
`"il il cane"` strips one leading article, giving `"il cane"`; normalizing
that again strips a second article, giving `"cane"`. -/
theorem normalize_entity_not_idempotent :
    normalize_entity (normalize_entity "il il cane") ≠ normalize_entity "il il cane" := by
  decide

/-- C3 (amended): normalization is idempotent for every entity string whose
normalized form is itself unchanged by the leading-article-stripping step;
lower-casing, punctuation removal and whitespace trimming alone never break
idempotence.  (Unconditional idempotence fails:
`normalize_entity_not_idempotent`.) -/
theorem normalize_entity_idempotent_of_fixed_article (x : String)
    (h : stripArticle (normalize_entity x).data = (normalize_entity x).data) :
    normalize_entity (normalize_entity x) = normalize_entity x := by
  show (⟨normalizeE (normalizeE x.data)⟩ : String) = ⟨normalizeE x.data⟩
  rw [normalizeE_idem_of_stripArticle h]

/-- Witness for amended C3 at `"Il Cane"` (normalized form `"cane"`, no
leading article). -/
theorem normalize_entity_idempotent_witness :
    normalize_entity (normalize_entity "Il Cane") = normalize_entity "Il Cane" :=
  normalize_entity_idempotent_of_fixed_article "Il Cane" (by decide)

set_option maxRecDepth 4000 in
unseal Rat.mul Rat.inv Rat.add Rat.sub in
/-- C4 counterexample: `cluster_entities` is not total.  On the
pairwise-distinct entity list `["!", "xyz"]` — the first entity's
normalized form is empty — with threshold 0.85 ∈ (0,1], the join
condition reaches `"".split()[0]`, which raises `IndexError`. -/
theorem cluster_entities_not_total :
    (["!", "xyz"] : List String).Nodup ∧ (0 : ℚ) < 85/100 ∧ (85/100 : ℚ) ≤ 1 ∧
      cluster_entities ["!", "xyz"] (85/100) = .error "IndexError" := by
  exact ⟨by decide, by decide, by decide, by decide⟩

/-- C4 (amended): `cluster_entities` returns normally on every entity list
all of whose normalized forms are nonempty, for every threshold; no
distinctness assumption is needed.  (Unrestricted totality fails:
`cluster_entities_not_total`.) -/
theorem cluster_entities_total_of_normalized_nonempty
    (entities : List String) (threshold : ℚ)
    (h : ∀ e ∈ entities, normalize_entity e ≠ "") :
    ∃ cs, cluster_entities entities threshold = .ok cs := by
  unfold cluster_entities
  apply outerScan_total
  intro e he
  have h2 : e.2 ∈ entities.map (fun x => (normalizeE x.data, x)) := by
    have := List.mem_map_of_mem Prod.snd he
    rwa [List.enum_map_snd] at this
  obtain ⟨x, hx, hxe⟩ := List.mem_map.mp h2
  rw [← hxe]
  apply firstTok_normalizeE
  intro hnil
  apply h x hx
  show (⟨normalizeE x.data⟩ : String) = ""
  rw [hnil]

set_option maxRecDepth 8000 in
unseal Rat.mul Rat.inv Rat.add Rat.sub in
/-- Witness for amended C4 at Scenario A's entity list (all normalized
forms nonempty). -/
theorem cluster_entities_total_witness :
    ∃ cs, cluster_entities ["Il Cane", "cane", "Gatto"] (85/100) = .ok cs :=
  cluster_entities_total_of_normalized_nonempty ["Il Cane", "cane", "Gatto"] (85/100)
    (by decide)

/-- C2: Postcondition of relation merging: every output triple of
`merge_relations` has resolved source and target that differ
case-insensitively, a predicate of trimmed length ≥ 3 whose lower-casing is
not stoplisted, and arises from an input triple by resolving both endpoints
through the member → representative map (unmapped entities resolving to
themselves); the output has no duplicates and is sorted lexicographically
by the tuple. -/
theorem merge_relations_postcondition (relations : List (String × String × String))
    (entity_clusters : List (String × List String)) :
    (∀ r ∈ merge_relations relations entity_clusters,
        pyLower r.1 ≠ pyLower r.2.2 ∧ 3 ≤ (pyStrip r.2.1).length ∧
        pyLower r.2.1 ∉ stoplist ∧
        ∃ s t, (s, r.2.1, t) ∈ relations ∧
          r.1 = mapGet (buildEntityToCluster entity_clusters) s ∧
          r.2.2 = mapGet (buildEntityToCluster entity_clusters) t) ∧
      (merge_relations relations entity_clusters).Nodup ∧
      (merge_relations relations entity_clusters).Sorted lex3Le := by
  unfold merge_relations
  refine ⟨?_, ?_, ?_⟩
  · intro r hr
    have hr1 := (List.perm_insertionSort lex3Le _).mem_iff.mp hr
    rw [List.mem_dedup] at hr1
    obtain ⟨a, ha, hfa⟩ := List.mem_filterMap.mp hr1
    split at hfa
    · cases hfa
    · rename_i hcond
      injection hfa with h'
      subst h'
      push_neg at hcond
      obtain ⟨h1, h2, h3⟩ := hcond
      exact ⟨h1, h2, h3, a.1, a.2.2, ha, rfl, rfl⟩
  · exact (List.perm_insertionSort lex3Le _).nodup_iff.mpr (List.nodup_dedup _)
  · exact List.sorted_insertionSort lex3Le _

/-- Witness for C2: the postcondition at the surviving triple of
Scenario B. -/
theorem merge_relations_postcondition_witness :
    pyLower "Il Cane" ≠ pyLower "carne" ∧ 3 ≤ (pyStrip "mangia").length ∧
      pyLower "mangia" ∉ stoplist := by
  have h := (merge_relations_postcondition
    [("Il Cane", "is", "Gatto"), ("cane", "mangia", "carne")]
    [("Il Cane", ["Il Cane", "cane"]), ("Gatto", ["Gatto"])]).1
    ("Il Cane", "mangia", "carne") (by decide)
  exact ⟨h.1, h.2.1, h.2.2.1⟩

set_option maxRecDepth 10000 in
unseal Rat.mul Rat.inv Rat.add Rat.sub in
/-- C5 counterexample: the clustering stage is order-sensitive beyond
representative choice.  The entity lists `["cane", "canes", "cane xyzzy"]`
and `["canes", "cane xyzzy", "cane"]` are permutations of each other, yet
at threshold 0.85 the first clusters into ONE cluster and the second into
TWO, so the families of cluster member sets (under any reading, including
as sets of normalized forms) differ. -/
theorem cluster_family_order_dependent :
    (["cane", "canes", "cane xyzzy"] : List String).Perm
        ["canes", "cane xyzzy", "cane"] ∧
      cluster_entities ["cane", "canes", "cane xyzzy"] (85/100) =
        .ok [("cane", ["cane", "canes", "cane xyzzy"])] ∧
      cluster_entities ["canes", "cane xyzzy", "cane"] (85/100) =
        .ok [("canes", ["canes", "cane"]), ("cane xyzzy", ["cane xyzzy"])] ∧
      ¬ ([("cane", ["cane", "canes", "cane xyzzy"])]
            : List (String × List String)).length =
          ([("canes", ["canes", "cane"]), ("cane xyzzy", ["cane xyzzy"])]
            : List (String × List String)).length :=
  ⟨@List.perm_append_comm String ["cane"] ["canes", "cane xyzzy"],
   by decide, by decide, by decide⟩

/-- C5 (amended): aggregation is order-invariant: permuting the list of
input graphs leaves the unioned entity set and the unioned relation set
unchanged.  The clustering stage is NOT order-invariant: the family of
cluster member sets itself (not only the representatives) can change with
the entity iteration order (`cluster_family_order_dependent`). -/
theorem aggregation_union_order_invariant (gs gs' : List Graph)
    (h : gs.Perm gs') :
    allEntities gs = allEntities gs' ∧ allRelations gs = allRelations gs' := by
  constructor
  · unfold allEntities
    rw [allEntities_eq, allEntities_eq]
    congr 1
    ext x
    simp only [List.mem_toFinset, List.mem_flatMap]
    constructor
    · rintro ⟨g, hg, hx⟩
      exact ⟨g, h.mem_iff.mp hg, hx⟩
    · rintro ⟨g, hg, hx⟩
      exact ⟨g, h.mem_iff.mpr hg, hx⟩
  · unfold allRelations
    rw [allRelations_eq, allRelations_eq]
    congr 1
    ext x
    simp only [List.mem_toFinset, List.mem_flatMap]
    constructor
    · rintro ⟨g, hg, hx⟩
      exact ⟨g, h.mem_iff.mp hg, hx⟩
    · rintro ⟨g, hg, hx⟩
      exact ⟨g, h.mem_iff.mpr hg, hx⟩

/-- Witness for amended C5: swapping two concrete input graphs leaves both
unioned sets unchanged. -/
theorem aggregation_union_order_invariant_witness :
    allEntities [⟨["a"], [("a", "likes", "b")], []⟩, ⟨["b"], [], ["e"]⟩] =
        allEntities [⟨["b"], [], ["e"]⟩, ⟨["a"], [("a", "likes", "b")], []⟩] ∧
      allRelations [⟨["a"], [("a", "likes", "b")], []⟩, ⟨["b"], [], ["e"]⟩] =
        allRelations [⟨["b"], [], ["e"]⟩, ⟨["a"], [("a", "likes", "b")], []⟩] :=
  aggregation_union_order_invariant _ _
    (@List.perm_append_comm Graph [⟨["a"], [("a", "likes", "b")], []⟩]
      [⟨["b"], [], ["e"]⟩])

set_option maxRecDepth 8000 in
unseal Rat.mul Rat.inv Rat.add Rat.sub in
/-- C6: Scenario A: clustering `["Il Cane", "cane", "Gatto"]` in that order at
threshold 0.85 yields exactly the clusters `"Il Cane" ↦ ["Il Cane", "cane"]`
and `"Gatto" ↦ ["Gatto"]`, and the clustered-entity count (number of
clusters) is 2. -/
theorem scenarioA_cluster :
    cluster_entities ["Il Cane", "cane", "Gatto"] (85/100) =
      .ok [("Il Cane", ["Il Cane", "cane"]), ("Gatto", ["Gatto"])] ∧
    ([("Il Cane", ["Il Cane", "cane"]), ("Gatto", ["Gatto"])]
      : List (String × List String)).length = 2 := by
  exact ⟨by decide, by decide⟩

/-- C7: Scenario B: merging
`[("Il Cane","is","Gatto"), ("cane","mangia","carne")]` with Scenario A's
cluster map returns exactly `[("Il Cane","mangia","carne")]`; the dropped
predicate `"is"` is stoplisted, the source `"cane"` resolves to its
representative `"Il Cane"`, and the unmapped target `"carne"` maps to
itself. -/
theorem scenarioB_merge :
    merge_relations [("Il Cane", "is", "Gatto"), ("cane", "mangia", "carne")]
        [("Il Cane", ["Il Cane", "cane"]), ("Gatto", ["Gatto"])] =
      [("Il Cane", "mangia", "carne")] ∧
    pyLower "is" ∈ stoplist ∧
    mapGet (buildEntityToCluster
      [("Il Cane", ["Il Cane", "cane"]), ("Gatto", ["Gatto"])]) "cane" = "Il Cane" ∧
    mapGet (buildEntityToCluster
      [("Il Cane", ["Il Cane", "cane"]), ("Gatto", ["Gatto"])]) "carne" = "carne" := by
  exact ⟨by decide, by decide, by decide, by decide⟩

/-- C8: Analyzer postcondition: `analyze_relations` returns at most 10
(predicate, count) pairs and at most 5 ((source, target), count) pairs,
each list sorted in non-increasing order of count, and every reported
count equals the number of input triples whose lower-cased predicate
(respectively lower-cased source/target pair) matches. -/
theorem analyze_relations_postcondition (relations : List (String × String × String)) :
    ((analyze_relations relations).1.length ≤ 10 ∧
      (analyze_relations relations).1.Sorted countGe ∧
      ∀ p ∈ (analyze_relations relations).1,
        p.2 = relations.countP (fun r => decide (pyLower r.2.1 = p.1))) ∧
    ((analyze_relations relations).2.length ≤ 5 ∧
      (analyze_relations relations).2.Sorted countGe ∧
      ∀ p ∈ (analyze_relations relations).2,
        p.2 = relations.countP (fun r => decide ((pyLower r.1, pyLower r.2.2) = p.1))) :=
  ⟨topTable_spec (fun r => pyLower r.2.1) relations 10,
   topTable_spec (fun r => (pyLower r.1, pyLower r.2.2)) relations 5⟩

/-- Witness for C8: the reported count of the case-insensitively counted
predicate `"rel"` over a two-triple input equals 2. -/
theorem analyze_relations_postcondition_witness :
    (("rel", 2) : String × Nat).2 =
      [("a", "rel", "b"), ("c", "REL", "d")].countP
        (fun r => decide (pyLower r.2.1 = (("rel", 2) : String × Nat).1)) :=
  (analyze_relations_postcondition [("a", "rel", "b"), ("c", "REL", "d")]).1.2.2
    ("rel", 2) (by decide)

/-- C9: Empty input: when no valid input graphs were loaded,
`process_directory` takes the early-return branch: it writes neither the
clustered-graph artifact nor the clustering-details artifact, and no error
outcome is produced. -/
theorem process_directory_empty (threshold : ℚ) :
    process_directory [] threshold = .ok none := rfl

/-- C10: Noninterference of input edge lists: two input graph lists that
agree on every graph's `entities` and `relations` fields but differ
arbitrarily in their `edges` fields produce identical
`cluster_knowledge_graphs` outputs (the output edges come only from the
merged relations' predicates). -/
theorem cluster_kg_edges_noninterference (gs gs' : List Graph) (threshold : ℚ)
    (h : List.Forall₂
      (fun g g' : Graph => g.entities = g'.entities ∧ g.relations = g'.relations) gs gs') :
    cluster_knowledge_graphs gs threshold = cluster_knowledge_graphs gs' threshold := by
  have he : allEntities gs = allEntities gs' :=
    allEntities_congr (h.imp (fun _ _ hp => hp.1)) ∅
  have hr : allRelations gs = allRelations gs' :=
    allRelations_congr (h.imp (fun _ _ hp => hp.2)) ∅
  unfold cluster_knowledge_graphs
  rw [he, hr]

/-- Witness for C10: two single-graph inputs differing only in `edges`. -/
theorem cluster_kg_edges_noninterference_witness :
    cluster_knowledge_graphs [⟨["a"], [("a", "rel", "b")], ["edge1"]⟩] 1 =
      cluster_knowledge_graphs [⟨["a"], [("a", "rel", "b")], ["edge2", "junk"]⟩] 1 :=
  cluster_kg_edges_noninterference _ _ 1
    (List.Forall₂.cons ⟨rfl, rfl⟩ List.Forall₂.nil)

/-! ## Sanity checks of the embedding on concrete data -/

example : normalize_entity "Il Cane" = "cane" := by decide
example : normalize_entity "cane" = "cane" := by decide
example : normalize_entity "Gatto" = "gatto" := by decide
example : normalize_entity "  il   cane!" = "cane" := by decide
example : normalize_entity "!" = "" := by decide
example : normalize_entity "il il cane" = "il cane" := by decide
example : normalize_entity "uno gatto" = "gatto" := by decide
example : normalize_entity "unox" = "unox" := by decide

example : matchTotal "cane".data "cane".data = 4 := by decide
example : matchTotal "cane".data "gatto".data = 1 := by decide
unseal Rat.mul Rat.inv Rat.add Rat.sub in
example : similar "cane".data "cane".data (85/100) = true := by decide
unseal Rat.mul Rat.inv Rat.add Rat.sub in
example : similar "cane".data "gatto".data (85/100) = false := by decide
unseal Rat.mul Rat.inv Rat.add Rat.sub in
example : similar "cane".data "canes".data (85/100) = true := by decide
set_option maxRecDepth 4000 in
unseal Rat.mul Rat.inv Rat.add Rat.sub in
example : similar "cane xyzzy".data "canes".data (85/100) = false := by decide

set_option maxRecDepth 8000 in
unseal Rat.mul Rat.inv Rat.add Rat.sub in
example :
    cluster_entities ["Il Cane", "cane", "Gatto"] (85/100) =
      .ok [("Il Cane", ["Il Cane", "cane"]), ("Gatto", ["Gatto"])] := by decide

unseal Rat.mul Rat.inv Rat.add Rat.sub in
example : cluster_entities ["!", "xyz"] (85/100) = .error "IndexError" := by decide

example :
    merge_relations [("Il Cane", "is", "Gatto"), ("cane", "mangia", "carne")]
      [("Il Cane", ["Il Cane", "cane"]), ("Gatto", ["Gatto"])] =
      [("Il Cane", "mangia", "carne")] := by decide

end SemanticsKG
